import Mathlib

/-!
Verification of the interval-algebra layer and selected callers of the
torch_ecg repository, as a shallow embedding in Lean 4.

Intervals are half-open pairs `[start, stop)` of integers, generalized
intervals are lists of such pairs.  The interval-algebra operations
(`overlaps`, `intervals_union`, `generalized_intervals_intersection`,
`generalized_interval_complement`, `max_disjoint_covering`,
`validate_interval`) are modelled from the spec, since the module
`torch_ecg/utils/utils_interval.py` defining them is not among the
available sources (only its re-exports and callers are).  The callers
(`AFDB.load_ann`, the trainer's model-unwrapping dispatch, and
`Resample.__init__`) are translated from the source files.
-/

namespace TorchECG

/-- A half-open interval `[start, stop)` with integer coordinates. -/
abbrev Iv : Type := ℤ × ℤ

/-- A generalized interval: a finite sequence of intervals. -/
abbrev GenIv : Type := List Iv

/-- An interval is valid when `start < stop` (nonempty, monotone bounds). -/
def validIv (i : Iv) : Prop := i.1 < i.2

instance (i : Iv) : Decidable (validIv i) :=
  inferInstanceAs (Decidable (i.1 < i.2))

/-- Point membership in a half-open interval: `start <= x < stop`. -/
def memIv (x : ℤ) (i : Iv) : Prop := i.1 ≤ x ∧ x < i.2

instance (x : ℤ) (i : Iv) : Decidable (memIv x i) :=
  inferInstanceAs (Decidable (i.1 ≤ x ∧ x < i.2))

/-- Point membership in a generalized interval: membership in some part. -/
def memGen (x : ℤ) (l : GenIv) : Prop := ∃ i ∈ l, memIv x i

instance (x : ℤ) (l : GenIv) : Decidable (memGen x l) :=
  inferInstanceAs (Decidable (∃ i ∈ l, memIv x i))

/-- Modelled from the spec: `overlaps(a, b) -> bool` of
`torch_ecg.utils.utils_interval` (module not among the sources) —
true iff `a` and `b` share any point under half-open semantics. -/
def overlaps (a b : Iv) : Bool := decide (max a.1 b.1 < min a.2 b.2)

/-- Merging over a list sorted ascending by start, with `cur` the interval
currently being grown: merge any interval that overlaps or touches `cur`
(`b.start <= cur.stop`) into one spanning interval, repeated until a
fixed point. -/
def mergeRun (cur : Iv) : GenIv → GenIv
  | [] => [cur]
  | b :: rest =>
    if b.1 ≤ cur.2 then mergeRun (cur.1, max cur.2 b.2) rest
    else cur :: mergeRun b rest

/-- One merging pass: merge any two adjacent intervals that overlap or
touch into one spanning interval, repeated until a fixed point. -/
def mergeAdjacent : GenIv → GenIv
  | [] => []
  | a :: rest => mergeRun a rest

/-- Ascending order on interval starts, used for sorting in the union. -/
def leStart (a b : Iv) : Prop := a.1 ≤ b.1

instance : DecidableRel leStart := fun a b =>
  inferInstanceAs (Decidable (a.1 ≤ b.1))

instance : IsTotal Iv leStart := ⟨fun a b => le_total a.1 b.1⟩

instance : IsTrans Iv leStart := ⟨fun _ _ _ => le_trans⟩

/-- Modelled from the spec: `intervals_union(list_of_intervals)` of
`torch_ecg.utils.utils_interval` (module not among the sources) —
sorts by start, merges any two intervals that overlap or touch
(`a.end >= b.start`) into one spanning interval, repeated until a
fixed point; output ascending by start. -/
def intervals_union (X : List Iv) : GenIv :=
  mergeAdjacent (List.insertionSort leStart X)

/-- Canonical form: parts pairwise separated by a nonempty gap
(`a.stop < b.start` for any earlier part `a` and later part `b`),
and every part valid. -/
def Canonical (l : GenIv) : Prop :=
  l.Pairwise (fun a b => a.2 < b.1) ∧ ∀ i ∈ l, validIv i

/-- The clipped overlap of two intervals, when nonempty. -/
def pairOverlap (a b : Iv) : Option Iv :=
  if max a.1 b.1 < min a.2 b.2 then some (max a.1 b.1, min a.2 b.2) else none

/-- Modelled from the spec: `generalized_intervals_intersection(A, B)` of
`torch_ecg.utils.utils_interval` (module not among the sources) — for
every pair `(a in A, b in B)` compute the clipped overlap (if any);
collect and canonicalize. -/
def generalized_intervals_intersection (A B : GenIv) : GenIv :=
  intervals_union (A.flatMap (fun a => B.filterMap (fun b => pairOverlap a b)))

/-- Walk a canonical generalized interval, emitting the gaps between
`cursor` and `hi` that its parts do not cover. -/
def gapsFrom (cursor hi : ℤ) : GenIv → GenIv
  | [] => if cursor < hi then [(cursor, hi)] else []
  | i :: rest =>
    (if cursor < min i.1 hi then [(cursor, min i.1 hi)] else []) ++
      gapsFrom (max cursor i.2) hi rest

/-- Modelled from the spec: `generalized_interval_complement(bounds, A)` of
`torch_ecg.utils.utils_interval` (module not among the sources) — given an
enclosing interval `bounds`, the gaps not covered by `A`, clipped to
`bounds`; `A` may be fully outside, fully covering, or partially covering
`bounds`. -/
def generalized_interval_complement (bounds : Iv) (A : GenIv) : GenIv :=
  gapsFrom bounds.1 bounds.2 (intervals_union A)

/-- Ascending lexicographic order on (stop, start): earliest end time
first, ties broken by start.  Total, transitive and antisymmetric. -/
def endLex (a b : Iv) : Prop := a.2 < b.2 ∨ (a.2 = b.2 ∧ a.1 ≤ b.1)

instance : DecidableRel endLex := fun a b =>
  inferInstanceAs (Decidable (a.2 < b.2 ∨ (a.2 = b.2 ∧ a.1 ≤ b.1)))

instance : IsTotal Iv endLex :=
  ⟨fun a b => by
    unfold endLex
    rcases lt_trichotomy a.2 b.2 with h | h | h
    · exact Or.inl (Or.inl h)
    · rcases le_total a.1 b.1 with h' | h'
      · exact Or.inl (Or.inr ⟨h, h'⟩)
      · exact Or.inr (Or.inr ⟨h.symm, h'⟩)
    · exact Or.inr (Or.inl h)⟩

instance : IsTrans Iv endLex :=
  ⟨fun a b c hab hbc => by
    unfold endLex at *
    rcases hab with h | ⟨h, h'⟩ <;> rcases hbc with g | ⟨g, g'⟩
    · exact Or.inl (h.trans g)
    · exact Or.inl (g ▸ h)
    · exact Or.inl (h ▸ g)
    · exact Or.inr ⟨h.trans g, h'.trans g'⟩⟩

instance : IsAntisymm Iv endLex :=
  ⟨fun a b hab hba => by
    unfold endLex at *
    rcases hab with h | ⟨h, h'⟩ <;> rcases hba with g | ⟨g, g'⟩ <;>
      [skip; skip; skip; exact Prod.ext (le_antisymm h' g') h] <;> omega⟩

/-- Sort intervals by earliest end time first (ties broken by start). -/
def sortByEnd (X : List Iv) : List Iv := List.insertionSort endLex X

/-- Greedy earliest-end-time-first selection over an end-sorted list:
take the earliest-ending interval, drop everything overlapping it,
recurse. -/
def greedySelect : List Iv → List Iv
  | [] => []
  | a :: rest => a :: greedySelect (rest.filter (fun b => decide (a.2 ≤ b.1)))
  termination_by l => l.length
  decreasing_by
    have := List.length_filter_le (fun b => decide (a.2 ≤ b.1)) rest
    simp only [List.length_cons]
    omega

/-- Total weight of a selection. -/
def totalWeight (w : Iv → ℤ) (l : List Iv) : ℤ := (l.map w).sum

/-- Of two candidate selections, keep the heavier one (the take-branch
on ties). -/
def pickMax (w : Iv → ℤ) (tk sk : List Iv) : List Iv :=
  if totalWeight w sk ≤ totalWeight w tk then tk else sk

/-- Weighted interval-scheduling selection over an end-sorted list, the
functional form of the interval-scheduling dynamic program: the optimum
over the remaining intervals either takes the earliest-ending interval
`a` together with the optimum over the intervals compatible with `a`, or
skips `a`; whichever selection weighs more is kept. -/
def mwisSelect (w : Iv → ℤ) : List Iv → List Iv
  | [] => []
  | a :: rest =>
    pickMax w (a :: mwisSelect w (rest.filter (fun b => decide (a.2 ≤ b.1))))
      (mwisSelect w rest)
  termination_by l => l.length
  decreasing_by
    · have := List.length_filter_le (fun b => decide (a.2 ≤ b.1)) rest
      simp only [List.length_cons]
      omega
    · simp only [List.length_cons]
      omega

/-- Modelled from the spec: `max_disjoint_covering(intervals, weight_fn)`
of `torch_ecg.utils.utils_interval` (module not among the sources) —
selects a maximum-cardinality (or maximum-weight, when a weight function
is given) subset of pairwise non-overlapping intervals; unweighted uses
greedy earliest-end-time-first selection, weighted uses the
interval-scheduling dynamic program, never a greedy fallback. -/
def max_disjoint_covering (X : List Iv) (weight_fn : Option (Iv → ℤ)) : List Iv :=
  match weight_fn with
  | none => greedySelect (sortByEnd X)
  | some w => mwisSelect w (sortByEnd X)

/-- Error raised on malformed intervals. -/
inductive IntervalError where
  | InvalidIntervalError : IntervalError
  deriving DecidableEq

/-- Modelled from the spec: `validate(start, end) -> Interval` of the
interval primitive layer (module not among the sources) — fails with
`InvalidIntervalError` when `stop <= start`, except that a zero-length
interval (`stop = start`) is accepted when the zero-length exception is
explicitly requested; non-monotone bounds (`stop < start`) are always
rejected. -/
def validate_interval (start stop : ℤ) (allowZeroLen : Bool) : Except IntervalError Iv :=
  if start < stop then Except.ok (start, stop)
  else if allowZeroLen && start == stop then Except.ok (start, stop)
  else Except.error IntervalError.InvalidIntervalError

/-- Whether interval validation fails. -/
def validateFails (start stop : ℤ) (allowZeroLen : Bool) : Bool :=
  match validate_interval start stop allowZeroLen with
  | Except.error _ => true
  | Except.ok _ => false

/-- From `AFDB.load_ann` (afdb.py): `sf = sampfrom or 0` — Python `or`
falls through on falsy values, so both `None` and `0` give `0`. -/
def sampfromOr0 (sampfrom : Option ℤ) : ℤ :=
  match sampfrom with
  | none => 0
  | some v => if v = 0 then 0 else v

/-- From `AFDB.load_ann` (afdb.py): `st = sampto or sig_len` — Python
`or` falls through on falsy values, so both `None` and `0` give
`sig_len`. -/
def samptoOrSigLen (sampto : Option ℤ) (sig_len : ℤ) : ℤ :=
  match sampto with
  | none => sig_len
  | some v => if v = 0 then sig_len else v

/-- From `AFDB.load_ann` (afdb.py lines 170-209), `ann_format="interval"`
branch, restricted to one rhythm class: the class's raw annotation
intervals are intersected with the query window `[[sf, st]]` via
`generalized_intervals_intersection`, then shifted by `-sf` unless
`keep_original`. -/
def afdb_load_ann_class (raw : GenIv) (sampfrom sampto : Option ℤ)
    (sig_len : ℤ) (keep_original : Bool) : GenIv :=
  let sf := sampfromOr0 sampfrom
  let st := samptoOrSigLen sampto sig_len
  let itv := generalized_intervals_intersection raw [(sf, st)]
  if keep_original then itv else itv.map (fun i => (i.1 - sf, i.2 - sf))

/-- A torch module as seen by the trainer: either a plain model (with its
class name) or one of the two parallel-training wrappers. -/
inductive TorchModule where
  | plain (name : String)
  | dataParallel (inner : TorchModule)
  | distributedDataParallel (inner : TorchModule)
  deriving DecidableEq

/-- `type(model).__name__`. -/
def typeName : TorchModule → String
  | TorchModule.plain n => n
  | TorchModule.dataParallel _ => "DataParallel"
  | TorchModule.distributedDataParallel _ => "DistributedDataParallel"

/-- The `.module` attribute: the wrapped base module of a parallel
wrapper; `none` models the `AttributeError` a plain module would raise. -/
def moduleAttr : TorchModule → Option TorchModule
  | TorchModule.plain _ => none
  | TorchModule.dataParallel m => some m
  | TorchModule.distributedDataParallel m => some m

/-- From `train` (trainer.py lines 98-103): dispatch on the runtime class
name string, unwrapping only when it is "DataParallel". -/
def train_unwrap (model : TorchModule) : Option TorchModule :=
  if ["DataParallel"].contains (typeName model) then moduleAttr model
  else some model

/-- From `evaluate_crnn` (trainer.py lines 626-631): same dispatch. -/
def evaluate_crnn_unwrap (model : TorchModule) : Option TorchModule :=
  if ["DataParallel"].contains (typeName model) then moduleAttr model
  else some model

/-- From `evaluate_seq_lab` (trainer.py lines 738-743): same dispatch. -/
def evaluate_seq_lab_unwrap (model : TorchModule) : Option TorchModule :=
  if ["DataParallel"].contains (typeName model) then moduleAttr model
  else some model

/-- Python truthiness `bool(x)` of an optional integer: `None` and `0`
are falsy, every other integer is truthy. -/
def pyTruthyOptInt : Option ℤ → Bool
  | none => false
  | some v => decide (v ≠ 0)

/-- From `Resample.__init__` (resample.py lines 22-37): the asserted
condition `sum([bool(self.fs), bool(self.siglen)]) == 1`. -/
def resample_init_ok (fs siglen : Option ℤ) : Bool :=
  (pyTruthyOptInt fs).toNat + (pyTruthyOptInt siglen).toNat == 1

/-- From `Resample.__init__` (resample.py lines 22-37): stores `fs` and
`siglen` and asserts that exactly one of them is truthy; an
`AssertionError` is modelled as `Except.error`. -/
def resample_init (fs siglen : Option ℤ) : Except String (Option ℤ × Option ℤ) :=
  if resample_init_ok fs siglen then Except.ok (fs, siglen)
  else Except.error "one and only one of fs and siglen should be set"

/-! ### Point-membership lemmas -/

theorem memGen_nil (x : ℤ) : ¬ memGen x [] := by
  simp [memGen]

theorem memGen_cons {x : ℤ} {i : Iv} {l : GenIv} :
    memGen x (i :: l) ↔ memIv x i ∨ memGen x l := by
  simp [memGen]

theorem memGen_append {x : ℤ} {l₁ l₂ : GenIv} :
    memGen x (l₁ ++ l₂) ↔ memGen x l₁ ∨ memGen x l₂ := by
  simp only [memGen, List.mem_append]
  constructor
  · rintro ⟨i, h | h, hm⟩
    · exact Or.inl ⟨i, h, hm⟩
    · exact Or.inr ⟨i, h, hm⟩
  · rintro (⟨i, h, hm⟩ | ⟨i, h, hm⟩)
    · exact ⟨i, Or.inl h, hm⟩
    · exact ⟨i, Or.inr h, hm⟩

theorem memGen_perm {x : ℤ} {l₁ l₂ : GenIv} (h : l₁.Perm l₂) :
    memGen x l₁ ↔ memGen x l₂ := by
  simp only [memGen]
  constructor
  · rintro ⟨i, hi, hm⟩; exact ⟨i, h.mem_iff.mp hi, hm⟩
  · rintro ⟨i, hi, hm⟩; exact ⟨i, h.mem_iff.mpr hi, hm⟩

/-! ### Lemmas about the merging pass of `intervals_union` -/

theorem mergeRun_start (l : GenIv) :
    ∀ (cur i : Iv), i ∈ mergeRun cur l → i.1 = cur.1 ∨ ∃ d ∈ l, i.1 = d.1 := by
  induction l with
  | nil =>
    intro cur i h
    simp only [mergeRun, List.mem_singleton] at h
    exact Or.inl (by rw [h])
  | cons b rest ih =>
    intro cur i h
    simp only [mergeRun] at h
    by_cases hb : b.1 ≤ cur.2
    · rw [if_pos hb] at h
      rcases ih _ i h with h1 | ⟨d, hd, he⟩
      · exact Or.inl h1
      · exact Or.inr ⟨d, List.mem_cons_of_mem _ hd, he⟩
    · rw [if_neg hb] at h
      rcases List.mem_cons.mp h with rfl | h2
      · exact Or.inl rfl
      · rcases ih b i h2 with h1 | ⟨d, hd, he⟩
        · exact Or.inr ⟨b, List.mem_cons_self _ _, h1⟩
        · exact Or.inr ⟨d, List.mem_cons_of_mem _ hd, he⟩

theorem mergeRun_sorted (l : GenIv) :
    ∀ cur : Iv, (∀ d ∈ l, cur.1 ≤ d.1) → l.Pairwise leStart →
      (mergeRun cur l).Pairwise leStart := by
  induction l with
  | nil =>
    intro cur _ _
    simp [mergeRun]
  | cons b rest ih =>
    intro cur hcur hp
    rcases List.pairwise_cons.mp hp with ⟨hbr, hpr⟩
    simp only [mergeRun]
    by_cases hb : b.1 ≤ cur.2
    · rw [if_pos hb]
      exact ih _ (fun d hd => hcur d (List.mem_cons_of_mem _ hd)) hpr
    · rw [if_neg hb]
      refine List.pairwise_cons.mpr ⟨fun i hi => ?_, ih b hbr hpr⟩
      rcases mergeRun_start rest b i hi with h1 | ⟨d, hd, he⟩
      · show cur.1 ≤ i.1
        rw [h1]; exact hcur b (List.mem_cons_self _ _)
      · show cur.1 ≤ i.1
        rw [he]; exact hcur d (List.mem_cons_of_mem _ hd)

theorem mergeRun_valid (l : GenIv) :
    ∀ cur : Iv, validIv cur → (∀ i ∈ l, validIv i) →
      ∀ i ∈ mergeRun cur l, validIv i := by
  induction l with
  | nil =>
    intro cur hcur _ i hi
    simp only [mergeRun, List.mem_singleton] at hi
    exact hi ▸ hcur
  | cons b rest ih =>
    intro cur hcur hl i hi
    simp only [mergeRun] at hi
    by_cases hb : b.1 ≤ cur.2
    · rw [if_pos hb] at hi
      refine ih _ ?_ (fun j hj => hl j (List.mem_cons_of_mem _ hj)) i hi
      exact lt_of_lt_of_le hcur (le_max_left _ _)
    · rw [if_neg hb] at hi
      rcases List.mem_cons.mp hi with rfl | h2
      · exact hcur
      · exact ih b (hl b (List.mem_cons_self _ _))
          (fun j hj => hl j (List.mem_cons_of_mem _ hj)) i h2

theorem mergeRun_gap (l : GenIv) :
    ∀ cur : Iv, l.Pairwise leStart →
      (mergeRun cur l).Pairwise (fun a b => a.2 < b.1) := by
  induction l with
  | nil =>
    intro cur _
    simp [mergeRun]
  | cons b rest ih =>
    intro cur hp
    rcases List.pairwise_cons.mp hp with ⟨hbr, hpr⟩
    simp only [mergeRun]
    by_cases hb : b.1 ≤ cur.2
    · rw [if_pos hb]
      exact ih _ hpr
    · rw [if_neg hb]
      refine List.pairwise_cons.mpr ⟨fun i hi => ?_, ih b hpr⟩
      rcases mergeRun_start rest b i hi with h1 | ⟨d, hd, he⟩
      · rw [h1]; omega
      · rw [he]
        have := hbr d hd
        show cur.2 < d.1
        have hcb : cur.2 < b.1 := by omega
        exact lt_of_lt_of_le hcb this

theorem mergeRun_mem (l : GenIv) :
    ∀ (cur : Iv) (x : ℤ), (∀ d ∈ l, cur.1 ≤ d.1) → l.Pairwise leStart →
      (memGen x (mergeRun cur l) ↔ memIv x cur ∨ memGen x l) := by
  induction l with
  | nil =>
    intro cur x _ _
    simp [mergeRun, memGen]
  | cons b rest ih =>
    intro cur x hcur hp
    rcases List.pairwise_cons.mp hp with ⟨hbr, hpr⟩
    simp only [mergeRun]
    by_cases hb : b.1 ≤ cur.2
    · rw [if_pos hb]
      rw [ih (cur.1, max cur.2 b.2) x
        (fun d hd => hcur d (List.mem_cons_of_mem _ hd)) hpr]
      rw [memGen_cons]
      have hcb : cur.1 ≤ b.1 := hcur b (List.mem_cons_self _ _)
      have hmerge : memIv x (cur.1, max cur.2 b.2) ↔ memIv x cur ∨ memIv x b := by
        simp only [memIv]
        have h1 : cur.2 ≤ max cur.2 b.2 := le_max_left _ _
        have h2 : b.2 ≤ max cur.2 b.2 := le_max_right _ _
        have h3 : max cur.2 b.2 = cur.2 ∨ max cur.2 b.2 = b.2 := max_choice _ _
        constructor
        · rintro ⟨hx1, hx2⟩; omega
        · rintro (⟨hx1, hx2⟩ | ⟨hx1, hx2⟩) <;> constructor <;> omega
      rw [hmerge]
      tauto
    · rw [if_neg hb]
      rw [memGen_cons, memGen_cons, ih b x (fun d hd => hbr d hd) hpr]

theorem mergeRun_bounds (l : GenIv) :
    ∀ (cur : Iv) (lo hi : ℤ), lo ≤ cur.1 → cur.2 ≤ hi →
      (∀ i ∈ l, lo ≤ i.1 ∧ i.2 ≤ hi) →
      ∀ i ∈ mergeRun cur l, lo ≤ i.1 ∧ i.2 ≤ hi := by
  induction l with
  | nil =>
    intro cur lo hi h1 h2 _ i hi'
    simp only [mergeRun, List.mem_singleton] at hi'
    exact hi' ▸ ⟨h1, h2⟩
  | cons b rest ih =>
    intro cur lo hi h1 h2 hl i hi'
    simp only [mergeRun] at hi'
    by_cases hb : b.1 ≤ cur.2
    · rw [if_pos hb] at hi'
      refine ih (cur.1, max cur.2 b.2) lo hi h1 ?_
        (fun j hj => hl j (List.mem_cons_of_mem _ hj)) i hi'
      have := (hl b (List.mem_cons_self _ _)).2
      exact max_le h2 this
    · rw [if_neg hb] at hi'
      rcases List.mem_cons.mp hi' with rfl | h3
      · exact ⟨h1, h2⟩
      · exact ih b lo hi (hl b (List.mem_cons_self _ _)).1
          (hl b (List.mem_cons_self _ _)).2
          (fun j hj => hl j (List.mem_cons_of_mem _ hj)) i h3

/-! ### Lemmas about `intervals_union` -/

theorem union_sorted (X : List Iv) : (intervals_union X).Pairwise leStart := by
  have hs := List.sorted_insertionSort leStart X
  unfold intervals_union
  cases h : List.insertionSort leStart X with
  | nil => simp [mergeAdjacent]
  | cons a t =>
    rw [h] at hs
    rw [List.sorted_cons] at hs
    simp only [mergeAdjacent]
    exact mergeRun_sorted t a hs.1 hs.2

theorem union_canonical (X : List Iv) (hX : ∀ i ∈ X, validIv i) :
    Canonical (intervals_union X) := by
  have hs := List.sorted_insertionSort leStart X
  have hv : ∀ i ∈ List.insertionSort leStart X, validIv i := fun i hi =>
    hX i ((List.mem_insertionSort leStart).mp hi)
  unfold intervals_union
  cases h : List.insertionSort leStart X with
  | nil => exact ⟨by simp [mergeAdjacent], by simp [mergeAdjacent]⟩
  | cons a t =>
    rw [h] at hs hv
    rw [List.sorted_cons] at hs
    simp only [mergeAdjacent]
    constructor
    · exact mergeRun_gap t a hs.2
    · exact mergeRun_valid t a (hv a (List.mem_cons_self _ _))
        (fun i hi => hv i (List.mem_cons_of_mem _ hi))

theorem union_mem (X : List Iv) (x : ℤ) :
    memGen x (intervals_union X) ↔ memGen x X := by
  have hp := List.perm_insertionSort leStart X
  have hs := List.sorted_insertionSort leStart X
  unfold intervals_union
  cases h : List.insertionSort leStart X with
  | nil =>
    rw [h] at hp
    have hX : X = [] := hp.symm.eq_nil
    subst hX
    simp [mergeAdjacent, memGen]
  | cons a t =>
    rw [h] at hp hs
    rw [List.sorted_cons] at hs
    simp only [mergeAdjacent]
    rw [mergeRun_mem t a x hs.1 hs.2, ← memGen_cons]
    exact memGen_perm hp

theorem union_bounds (X : List Iv) (lo hi : ℤ)
    (h : ∀ i ∈ X, lo ≤ i.1 ∧ i.2 ≤ hi) :
    ∀ i ∈ intervals_union X, lo ≤ i.1 ∧ i.2 ≤ hi := by
  have hv : ∀ i ∈ List.insertionSort leStart X, lo ≤ i.1 ∧ i.2 ≤ hi :=
    fun i hi => h i ((List.mem_insertionSort leStart).mp hi)
  unfold intervals_union
  cases hq : List.insertionSort leStart X with
  | nil => simp [mergeAdjacent]
  | cons a t =>
    rw [hq] at hv
    simp only [mergeAdjacent]
    exact mergeRun_bounds t a lo hi (hv a (List.mem_cons_self _ _)).1
      (hv a (List.mem_cons_self _ _)).2
      (fun j hj => hv j (List.mem_cons_of_mem _ hj))

/-! ### Uniqueness of the canonical form -/

theorem canonical_gt_head {a : Iv} {t : GenIv} (h : Canonical (a :: t)) :
    ∀ i ∈ t, a.2 < i.1 :=
  fun i hi => (List.pairwise_cons.mp h.1).1 i hi

theorem canonical_tail {a : Iv} {t : GenIv} (h : Canonical (a :: t)) :
    Canonical t :=
  ⟨(List.pairwise_cons.mp h.1).2, fun i hi => h.2 i (List.mem_cons_of_mem _ hi)⟩

/-- Two canonical generalized intervals with the same integer points are
equal: the canonical form is a normal form. -/
theorem canonical_ext : ∀ (l₁ l₂ : GenIv), Canonical l₁ → Canonical l₂ →
    (∀ x, memGen x l₁ ↔ memGen x l₂) → l₁ = l₂ := by
  intro l₁
  induction l₁ with
  | nil =>
    intro l₂ _ h₂ hmem
    cases l₂ with
    | nil => rfl
    | cons b t₂ =>
      exfalso
      have hbv : b.1 < b.2 := h₂.2 b (List.mem_cons_self _ _)
      have hb : memGen b.1 (b :: t₂) :=
        memGen_cons.mpr (Or.inl ⟨le_refl _, hbv⟩)
      exact memGen_nil b.1 ((hmem b.1).mpr hb)
  | cons a t₁ ih =>
    intro l₂ h₁ h₂ hmem
    cases l₂ with
    | nil =>
      exfalso
      have hav : a.1 < a.2 := h₁.2 a (List.mem_cons_self _ _)
      have ha : memGen a.1 (a :: t₁) :=
        memGen_cons.mpr (Or.inl ⟨le_refl _, hav⟩)
      exact memGen_nil a.1 ((hmem a.1).mp ha)
    | cons b t₂ =>
      have hav : a.1 < a.2 := h₁.2 a (List.mem_cons_self _ _)
      have hbv : b.1 < b.2 := h₂.2 b (List.mem_cons_self _ _)
      have hba : b.1 ≤ a.1 := by
        have h1 : memGen a.1 (b :: t₂) :=
          (hmem a.1).mp (memGen_cons.mpr (Or.inl ⟨le_refl _, hav⟩))
        rcases memGen_cons.mp h1 with hm | ⟨i, hi, hmi⟩
        · exact hm.1
        · have hgt : b.2 < i.1 := canonical_gt_head h₂ i hi
          have hle : i.1 ≤ a.1 := hmi.1
          omega
      have hab : a.1 ≤ b.1 := by
        have h2 : memGen b.1 (a :: t₁) :=
          (hmem b.1).mpr (memGen_cons.mpr (Or.inl ⟨le_refl _, hbv⟩))
        rcases memGen_cons.mp h2 with hm | ⟨i, hi, hmi⟩
        · exact hm.1
        · have hgt : a.2 < i.1 := canonical_gt_head h₁ i hi
          have hle : i.1 ≤ b.1 := hmi.1
          omega
      have hstart : a.1 = b.1 := le_antisymm hab hba
      have hend : a.2 = b.2 := by
        by_contra hne
        rcases lt_or_gt_of_ne hne with hlt | hgt
        · have hx : memGen a.2 (b :: t₂) :=
            memGen_cons.mpr (Or.inl ⟨by omega, hlt⟩)
          have hx' : memGen a.2 (a :: t₁) := (hmem a.2).mpr hx
          rcases memGen_cons.mp hx' with hm | ⟨i, hi, hmi⟩
          · exact absurd hm.2 (lt_irrefl _)
          · have hg : a.2 < i.1 := canonical_gt_head h₁ i hi
            have hle : i.1 ≤ a.2 := hmi.1
            omega
        · have hx : memGen b.2 (a :: t₁) :=
            memGen_cons.mpr (Or.inl ⟨by omega, hgt⟩)
          have hx' : memGen b.2 (b :: t₂) := (hmem b.2).mp hx
          rcases memGen_cons.mp hx' with hm | ⟨i, hi, hmi⟩
          · exact absurd hm.2 (lt_irrefl _)
          · have hg : b.2 < i.1 := canonical_gt_head h₂ i hi
            have hle : i.1 ≤ b.2 := hmi.1
            omega
      have hhead : a = b := Prod.ext hstart hend
      have htail : ∀ x, memGen x t₁ ↔ memGen x t₂ := by
        intro x
        constructor
        · intro hx
          obtain ⟨i, hi, hmi⟩ := hx
          have hg : a.2 < i.1 := canonical_gt_head h₁ i hi
          have hxa : a.2 < x := lt_of_lt_of_le hg hmi.1
          have hx1 : memGen x (b :: t₂) :=
            (hmem x).mp (memGen_cons.mpr (Or.inr ⟨i, hi, hmi⟩))
          rcases memGen_cons.mp hx1 with hm | hm
          · exfalso
            have hlt : x < b.2 := hm.2
            omega
          · exact hm
        · intro hx
          obtain ⟨i, hi, hmi⟩ := hx
          have hg : b.2 < i.1 := canonical_gt_head h₂ i hi
          have hxb : b.2 < x := lt_of_lt_of_le hg hmi.1
          have hx1 : memGen x (a :: t₁) :=
            (hmem x).mpr (memGen_cons.mpr (Or.inr ⟨i, hi, hmi⟩))
          rcases memGen_cons.mp hx1 with hm | hm
          · exfalso
            have hlt : x < a.2 := hm.2
            omega
          · exact hm
      rw [hhead]
      exact congrArg (b :: ·)
        (ih t₂ (canonical_tail h₁) (canonical_tail h₂) htail)

/-! ### Lemmas about `generalized_intervals_intersection` -/

theorem pairOverlap_mem {a b : Iv} {x : ℤ} :
    (∃ c, pairOverlap a b = some c ∧ memIv x c) ↔ memIv x a ∧ memIv x b := by
  unfold pairOverlap
  split_ifs with h
  · constructor
    · rintro ⟨c, hc, hm⟩
      rw [Option.some_inj] at hc
      subst hc
      have h1 : max a.1 b.1 ≤ x := hm.1
      have h2 : x < min a.2 b.2 := hm.2
      have h3 : a.1 ≤ max a.1 b.1 := le_max_left _ _
      have h4 : b.1 ≤ max a.1 b.1 := le_max_right _ _
      have h5 : min a.2 b.2 ≤ a.2 := min_le_left _ _
      have h6 : min a.2 b.2 ≤ b.2 := min_le_right _ _
      exact ⟨⟨by omega, by omega⟩, ⟨by omega, by omega⟩⟩
    · rintro ⟨⟨h1, h2⟩, ⟨h3, h4⟩⟩
      exact ⟨_, rfl, ⟨max_le h1 h3, lt_min h2 h4⟩⟩
  · constructor
    · rintro ⟨c, hc, _⟩
      exact absurd hc (by simp)
    · rintro ⟨⟨h1, h2⟩, ⟨h3, h4⟩⟩
      exact absurd (lt_of_le_of_lt (max_le h1 h3) (lt_min h2 h4)) h

theorem pairs_mem (A B : GenIv) (x : ℤ) :
    memGen x (A.flatMap (fun a => B.filterMap (fun b => pairOverlap a b))) ↔
      memGen x A ∧ memGen x B := by
  constructor
  · rintro ⟨c, hc, hm⟩
    rcases List.mem_flatMap.mp hc with ⟨a, ha, hcf⟩
    rcases List.mem_filterMap.mp hcf with ⟨b, hb, heq⟩
    have hab := pairOverlap_mem.mp ⟨c, heq, hm⟩
    exact ⟨⟨a, ha, hab.1⟩, ⟨b, hb, hab.2⟩⟩
  · rintro ⟨⟨a, ha, hma⟩, ⟨b, hb, hmb⟩⟩
    rcases pairOverlap_mem.mpr ⟨hma, hmb⟩ with ⟨c, heq, hm⟩
    exact ⟨c, List.mem_flatMap.mpr
      ⟨a, ha, List.mem_filterMap.mpr ⟨b, hb, heq⟩⟩, hm⟩

theorem pairs_valid (A B : GenIv) :
    ∀ c ∈ A.flatMap (fun a => B.filterMap (fun b => pairOverlap a b)),
      validIv c := by
  intro c hc
  rcases List.mem_flatMap.mp hc with ⟨a, _, hcf⟩
  rcases List.mem_filterMap.mp hcf with ⟨b, _, heq⟩
  unfold pairOverlap at heq
  split_ifs at heq with h
  rw [Option.some_inj] at heq
  exact heq ▸ h

theorem genInt_mem (A B : GenIv) (x : ℤ) :
    memGen x (generalized_intervals_intersection A B) ↔
      memGen x A ∧ memGen x B := by
  unfold generalized_intervals_intersection
  rw [union_mem]
  exact pairs_mem A B x

theorem genInt_canonical (A B : GenIv) :
    Canonical (generalized_intervals_intersection A B) :=
  union_canonical _ (pairs_valid A B)

theorem genInt_window_bounds (A : GenIv) (lo hi : ℤ) :
    ∀ i ∈ generalized_intervals_intersection A [(lo, hi)],
      lo ≤ i.1 ∧ i.2 ≤ hi := by
  unfold generalized_intervals_intersection
  apply union_bounds
  intro c hc
  rcases List.mem_flatMap.mp hc with ⟨a, _, hcf⟩
  rcases List.mem_filterMap.mp hcf with ⟨b, hb, heq⟩
  rw [List.mem_singleton] at hb
  subst hb
  unfold pairOverlap at heq
  split_ifs at heq with h
  rw [Option.some_inj] at heq
  subst heq
  exact ⟨le_max_right _ _, min_le_right _ _⟩

/-! ### Lemmas about `gapsFrom` and the complement -/

theorem gapsFrom_start (l : GenIv) :
    ∀ (c hi : ℤ) (i : Iv), i ∈ gapsFrom c hi l → c ≤ i.1 := by
  induction l with
  | nil =>
    intro c hi i h
    simp only [gapsFrom] at h
    split_ifs at h with hg
    · rw [List.mem_singleton] at h
      exact h ▸ le_refl _
    · exact absurd h (List.not_mem_nil i)
  | cons a rest ih =>
    intro c hi i h
    simp only [gapsFrom, List.mem_append] at h
    rcases h with h | h
    · split_ifs at h with hg
      · rw [List.mem_singleton] at h
        exact h ▸ le_refl _
      · exact absurd h (List.not_mem_nil i)
    · have := ih (max c a.2) hi i h
      have h2 : c ≤ max c a.2 := le_max_left _ _
      omega

theorem gapsFrom_canonical (l : GenIv) (hcan : Canonical l) :
    ∀ c hi : ℤ, Canonical (gapsFrom c hi l) := by
  induction l with
  | nil =>
    intro c hi
    simp only [gapsFrom]
    split_ifs with hg
    · exact ⟨List.pairwise_singleton _ _, by
        intro i hi'
        rw [List.mem_singleton] at hi'
        exact hi' ▸ hg⟩
    · exact ⟨List.Pairwise.nil, by simp⟩
  | cons a rest ih =>
    intro c hi
    have hval : a.1 < a.2 := hcan.2 a (List.mem_cons_self _ _)
    have ihre := ih (canonical_tail hcan) (max c a.2) hi
    simp only [gapsFrom]
    constructor
    · rw [List.pairwise_append]
      refine ⟨?_, ihre.1, ?_⟩
      · split_ifs with hg
        · exact List.pairwise_singleton _ _
        · exact List.Pairwise.nil
      · intro i hi' j hj
        split_ifs at hi' with hg
        · rw [List.mem_singleton] at hi'
          subst hi'
          have hj1 : max c a.2 ≤ j.1 := gapsFrom_start rest (max c a.2) hi j hj
          have h2 : a.2 ≤ max c a.2 := le_max_right _ _
          have h3 : min a.1 hi ≤ a.1 := min_le_left _ _
          show min a.1 hi < j.1
          omega
        · exact absurd hi' (List.not_mem_nil i)
    · intro i hi'
      rw [List.mem_append] at hi'
      rcases hi' with h | h
      · split_ifs at h with hg
        · rw [List.mem_singleton] at h
          exact h ▸ hg
        · exact absurd h (List.not_mem_nil i)
      · exact ihre.2 i h

theorem gapsFrom_mem (l : GenIv) (hcan : Canonical l) :
    ∀ (c hi x : ℤ),
      memGen x (gapsFrom c hi l) ↔ (c ≤ x ∧ x < hi ∧ ¬ memGen x l) := by
  induction l with
  | nil =>
    intro c hi x
    simp only [gapsFrom]
    split_ifs with hg
    · simp only [memGen_cons, memGen_nil x, or_false]
      unfold memIv
      constructor
      · rintro ⟨h1, h2⟩
        exact ⟨h1, h2, fun h => h⟩
      · rintro ⟨h1, h2, _⟩
        exact ⟨h1, h2⟩
    · constructor
      · intro h
        exact absurd h (memGen_nil x)
      · rintro ⟨h1, h2, _⟩
        omega
  | cons a rest ih =>
    intro c hi x
    have hval : a.1 < a.2 := hcan.2 a (List.mem_cons_self _ _)
    have hgt : ∀ i ∈ rest, a.2 < i.1 := canonical_gt_head hcan
    simp only [gapsFrom]
    rw [memGen_append, ih (canonical_tail hcan) (max c a.2) hi x, memGen_cons]
    have hemit : memGen x (if c < min a.1 hi then [(c, min a.1 hi)] else []) ↔
        (c ≤ x ∧ x < min a.1 hi) := by
      split_ifs with hg
      · simp only [memGen_cons, memGen_nil x, or_false]
        unfold memIv
        exact Iff.rfl
      · constructor
        · intro h
          exact absurd h (memGen_nil x)
        · rintro ⟨h1, h2⟩
          omega
    rw [hemit]
    by_cases hR : memGen x rest
    · obtain ⟨i, hi', hmi⟩ := hR
      have hgi : a.2 < i.1 := hgt i hi'
      have hxi : i.1 ≤ x := hmi.1
      have hm1 : min a.1 hi ≤ a.1 := min_le_left _ _
      constructor
      · rintro (⟨h1, h2⟩ | ⟨h1, h2, h3⟩)
        · omega
        · exact absurd ⟨i, hi', hmi⟩ h3
      · rintro ⟨h1, h2, h3⟩
        exact absurd (Or.inr ⟨i, hi', hmi⟩) h3
    · have hm1 : min a.1 hi ≤ a.1 := min_le_left _ _
      have hm2 : min a.1 hi ≤ hi := min_le_right _ _
      have hm3 : min a.1 hi = a.1 ∨ min a.1 hi = hi := min_choice _ _
      have hM1 : c ≤ max c a.2 := le_max_left _ _
      have hM2 : a.2 ≤ max c a.2 := le_max_right _ _
      have hM3 : max c a.2 = c ∨ max c a.2 = a.2 := max_choice _ _
      unfold memIv
      constructor
      · rintro (⟨h1, h2⟩ | ⟨h1, h2, _⟩)
        · refine ⟨by omega, by omega, ?_⟩
          rintro (⟨h3, h4⟩ | hr)
          · omega
          · exact hR hr
        · refine ⟨by omega, h2, ?_⟩
          rintro (⟨h3, h4⟩ | hr)
          · omega
          · exact hR hr
      · rintro ⟨h1, h2, h3⟩
        by_cases hxa : x < a.1
        · exact Or.inl ⟨h1, by omega⟩
        · refine Or.inr ⟨?_, h2, hR⟩
          have hna : ¬ (a.1 ≤ x ∧ x < a.2) := fun hc => h3 (Or.inl hc)
          omega

theorem complement_mem (bounds : Iv) (A : GenIv)
    (hA : ∀ i ∈ A, validIv i) (x : ℤ) :
    memGen x (generalized_interval_complement bounds A) ↔
      (memIv x bounds ∧ ¬ memGen x A) := by
  unfold generalized_interval_complement
  rw [gapsFrom_mem _ (union_canonical A hA), union_mem]
  unfold memIv
  tauto

theorem complement_canonical (bounds : Iv) (A : GenIv)
    (hA : ∀ i ∈ A, validIv i) :
    Canonical (generalized_interval_complement bounds A) :=
  gapsFrom_canonical _ (union_canonical A hA) _ _

/-! ### Lemmas about `max_disjoint_covering` -/

theorem overlaps_eq_false_iff {a b : Iv} :
    overlaps a b = false ↔ min a.2 b.2 ≤ max a.1 b.1 := by
  unfold overlaps
  rw [decide_eq_false_iff_not, not_lt]

theorem overlaps_comm (a b : Iv) : overlaps a b = overlaps b a := by
  unfold overlaps
  rw [max_comm, min_comm]

theorem sep_of_noOverlap {s b : Iv} (hvs : validIv s) (hend : s.2 ≤ b.2)
    (hno : overlaps s b = false) : s.2 ≤ b.1 := by
  rw [overlaps_eq_false_iff] at hno
  have h1 : min s.2 b.2 = s.2 := min_eq_left hend
  have h2 : max s.1 b.1 = s.1 ∨ max s.1 b.1 = b.1 := max_choice _ _
  have h3 : s.1 < s.2 := hvs
  omega

theorem noOverlap_of_sep {a b : Iv} (h : a.2 ≤ b.1) :
    overlaps a b = false := by
  rw [overlaps_eq_false_iff]
  have h1 : min a.2 b.2 ≤ a.2 := min_le_left _ _
  have h2 : b.1 ≤ max a.1 b.1 := le_max_right _ _
  omega

theorem endLex_le {a b : Iv} (h : endLex a b) : a.2 ≤ b.2 := by
  unfold endLex at h
  omega

theorem greedySelect_sublist : ∀ l : List Iv, (greedySelect l).Sublist l := by
  intro l
  induction l using greedySelect.induct with
  | case1 => simp [greedySelect]
  | case2 a rest ih =>
    rw [greedySelect]
    exact List.Sublist.cons₂ a (ih.trans (List.filter_sublist rest))

theorem greedySelect_pairwise :
    ∀ l : List Iv, (greedySelect l).Pairwise (fun a b => overlaps a b = false) := by
  intro l
  induction l using greedySelect.induct with
  | case1 => simp [greedySelect]
  | case2 a rest ih =>
    rw [greedySelect]
    refine List.pairwise_cons.mpr ⟨fun b hb => ?_, ih⟩
    have hb' : b ∈ rest.filter (fun b => decide (a.2 ≤ b.1)) :=
      (greedySelect_sublist _).subset hb
    have hpred : a.2 ≤ b.1 := by
      have := (List.mem_filter.mp hb').2
      exact of_decide_eq_true this
    exact noOverlap_of_sep hpred

theorem greedySelect_opt :
    ∀ l : List Iv, (∀ i ∈ l, validIv i) → l.Pairwise endLex →
      ∀ S : List Iv, S.Sublist l → S.Pairwise (fun a b => overlaps a b = false) →
        S.length ≤ (greedySelect l).length := by
  intro l
  induction l using greedySelect.induct with
  | case1 =>
    intro _ _ S hS _
    simp [List.sublist_nil.mp hS]
  | case2 a rest ih =>
    intro hval hsort S hS hSno
    rw [greedySelect]
    cases S with
    | nil => simp
    | cons s S' =>
      rcases List.pairwise_cons.mp hsort with ⟨ha_rest, hsort_rest⟩
      have hs_mem : s ∈ a :: rest := hS.subset (List.mem_cons_self _ _)
      have hS' : S'.Sublist rest := by
        cases hS with
        | cons _ h => exact (List.sublist_cons_self s S').trans h
        | cons₂ _ h => exact h
      have ha_s : a.2 ≤ s.2 := by
        rcases List.mem_cons.mp hs_mem with rfl | hmem
        · exact le_refl _
        · exact endLex_le (ha_rest s hmem)
      have hs_valid : validIv s := hval s hs_mem
      have hS_endLex : (s :: S').Pairwise endLex :=
        List.Pairwise.sublist hS hsort
      rcases List.pairwise_cons.mp hS_endLex with ⟨hs_S', _⟩
      rcases List.pairwise_cons.mp hSno with ⟨hs_no, hS'no⟩
      have hall : ∀ b ∈ S', decide (a.2 ≤ b.1) = true := by
        intro b hb
        have h1 : s.2 ≤ b.2 := endLex_le (hs_S' b hb)
        have h2 : s.2 ≤ b.1 := sep_of_noOverlap hs_valid h1 (hs_no b hb)
        exact decide_eq_true (by omega)
      have hS'f : S'.Sublist (rest.filter (fun b => decide (a.2 ≤ b.1))) := by
        have := hS'.filter (fun b => decide (a.2 ≤ b.1))
        rwa [List.filter_eq_self.mpr hall] at this
      have hvf : ∀ i ∈ rest.filter (fun b => decide (a.2 ≤ b.1)), validIv i :=
        fun i hi => hval i (List.mem_cons_of_mem _ (List.mem_filter.mp hi).1)
      have hsf : (rest.filter (fun b => decide (a.2 ≤ b.1))).Pairwise endLex :=
        hsort_rest.filter _
      have := ih hvf hsf S' hS'f hS'no
      simp only [List.length_cons]
      omega

theorem pickMax_cases (w : Iv → ℤ) (tk sk : List Iv) :
    pickMax w tk sk = tk ∨ pickMax w tk sk = sk := by
  unfold pickMax
  split_ifs
  · exact Or.inl rfl
  · exact Or.inr rfl

theorem le_pickMax_left (w : Iv → ℤ) (tk sk : List Iv) :
    totalWeight w tk ≤ totalWeight w (pickMax w tk sk) := by
  unfold pickMax
  split_ifs with h
  · exact le_refl _
  · omega

theorem le_pickMax_right (w : Iv → ℤ) (tk sk : List Iv) :
    totalWeight w sk ≤ totalWeight w (pickMax w tk sk) := by
  unfold pickMax
  split_ifs with h
  · exact h
  · exact le_refl _

theorem mwisSelect_sublist (w : Iv → ℤ) :
    ∀ l : List Iv, (mwisSelect w l).Sublist l := by
  intro l
  induction l using mwisSelect.induct w with
  | case1 => simp [mwisSelect]
  | case2 a rest ih1 ih2 =>
    rw [mwisSelect]
    rcases pickMax_cases w
      (a :: mwisSelect w (rest.filter (fun b => decide (a.2 ≤ b.1))))
      (mwisSelect w rest) with h | h <;> rw [h]
    · exact List.Sublist.cons₂ a (ih1.trans (List.filter_sublist rest))
    · exact ih2.trans (List.sublist_cons_self a rest)

theorem mwisSelect_pairwise (w : Iv → ℤ) :
    ∀ l : List Iv, (mwisSelect w l).Pairwise (fun a b => overlaps a b = false) := by
  intro l
  induction l using mwisSelect.induct w with
  | case1 => simp [mwisSelect]
  | case2 a rest ih1 ih2 =>
    rw [mwisSelect]
    rcases pickMax_cases w
      (a :: mwisSelect w (rest.filter (fun b => decide (a.2 ≤ b.1))))
      (mwisSelect w rest) with h | h <;> rw [h]
    · refine List.pairwise_cons.mpr ⟨fun b hb => ?_, ih1⟩
      have hb' : b ∈ rest.filter (fun b => decide (a.2 ≤ b.1)) :=
        (mwisSelect_sublist w _).subset hb
      have hpred : a.2 ≤ b.1 := of_decide_eq_true (List.mem_filter.mp hb').2
      exact noOverlap_of_sep hpred
    · exact ih2

theorem totalWeight_cons (w : Iv → ℤ) (a : Iv) (l : List Iv) :
    totalWeight w (a :: l) = w a + totalWeight w l := by
  simp [totalWeight]

theorem mwisSelect_opt (w : Iv → ℤ) :
    ∀ l : List Iv, (∀ i ∈ l, validIv i) → l.Pairwise endLex →
      ∀ S : List Iv, S.Sublist l → S.Pairwise (fun a b => overlaps a b = false) →
        totalWeight w S ≤ totalWeight w (mwisSelect w l) := by
  intro l
  induction l using mwisSelect.induct w with
  | case1 =>
    intro _ _ S hS _
    simp [List.sublist_nil.mp hS, totalWeight, mwisSelect]
  | case2 a rest ih1 ih2 =>
    intro hval hsort S hS hSno
    rcases List.pairwise_cons.mp hsort with ⟨ha_rest, hsort_rest⟩
    have hskip : totalWeight w (mwisSelect w rest) ≤
        totalWeight w (mwisSelect w (a :: rest)) := by
      rw [mwisSelect]
      exact le_pickMax_right w _ _
    have htake : totalWeight w
        (a :: mwisSelect w (rest.filter (fun b => decide (a.2 ≤ b.1)))) ≤
        totalWeight w (mwisSelect w (a :: rest)) := by
      rw [mwisSelect]
      exact le_pickMax_left w _ _
    cases hS with
    | cons _ h =>
      have hrest : ∀ i ∈ rest, validIv i :=
        fun i hi => hval i (List.mem_cons_of_mem _ hi)
      exact le_trans (ih2 hrest hsort_rest S h hSno) hskip
    | cons₂ _ h =>
      rename_i S'
      rcases List.pairwise_cons.mp hSno with ⟨ha_no, hS'no⟩
      have hS_endLex : (a :: S').Pairwise endLex :=
        List.Pairwise.sublist (List.Sublist.cons₂ a h) hsort
      rcases List.pairwise_cons.mp hS_endLex with ⟨ha_S', _⟩
      have ha_valid : validIv a := hval a (List.mem_cons_self _ _)
      have hall : ∀ b ∈ S', decide (a.2 ≤ b.1) = true := by
        intro b hb
        have h1 : a.2 ≤ b.2 := endLex_le (ha_S' b hb)
        have h2 : a.2 ≤ b.1 := sep_of_noOverlap ha_valid h1 (ha_no b hb)
        exact decide_eq_true h2
      have hS'f : S'.Sublist (rest.filter (fun b => decide (a.2 ≤ b.1))) := by
        have := h.filter (fun b => decide (a.2 ≤ b.1))
        rwa [List.filter_eq_self.mpr hall] at this
      have hvf : ∀ i ∈ rest.filter (fun b => decide (a.2 ≤ b.1)), validIv i :=
        fun i hi => hval i (List.mem_cons_of_mem _ (List.mem_filter.mp hi).1)
      have hsf : (rest.filter (fun b => decide (a.2 ≤ b.1))).Pairwise endLex :=
        hsort_rest.filter _
      have hrec := ih1 hvf hsf S' hS'f hS'no
      calc totalWeight w (a :: S')
          = w a + totalWeight w S' := totalWeight_cons w a S'
        _ ≤ w a + totalWeight w
              (mwisSelect w (rest.filter (fun b => decide (a.2 ≤ b.1)))) := by
            omega
        _ = totalWeight w
              (a :: mwisSelect w (rest.filter (fun b => decide (a.2 ≤ b.1)))) :=
            (totalWeight_cons w a _).symm
        _ ≤ totalWeight w (mwisSelect w (a :: rest)) := htake

theorem sortByEnd_sorted (X : List Iv) : (sortByEnd X).Pairwise endLex :=
  List.sorted_insertionSort endLex X

theorem sortByEnd_perm (X : List Iv) : (sortByEnd X).Perm X :=
  List.perm_insertionSort endLex X

theorem subperm_sortByEnd {S X : List Iv} (h : S.Subperm X) :
    (sortByEnd S).Sublist (sortByEnd X) := by
  have h1 : (sortByEnd S).Subperm X := (sortByEnd_perm S).subperm.trans h
  have h2 : (sortByEnd S).Subperm (sortByEnd X) :=
    h1.trans (sortByEnd_perm X).symm.subperm
  exact List.sublist_of_subperm_of_sorted h2 (sortByEnd_sorted S) (sortByEnd_sorted X)

theorem pairwise_noOverlap_perm {S T : List Iv} (h : S.Perm T) :
    S.Pairwise (fun a b => overlaps a b = false) ↔
      T.Pairwise (fun a b => overlaps a b = false) :=
  h.pairwise_iff (fun hxy => by rwa [overlaps_comm])

theorem totalWeight_perm (w : Iv → ℤ) {S T : List Iv} (h : S.Perm T) :
    totalWeight w S = totalWeight w T :=
  (h.map w).sum_eq

theorem memGen_singleton {x : ℤ} {i : Iv} : memGen x [i] ↔ memIv x i := by
  simp [memGen]

/-! ### Claim theorems -/

/-- C1: for every list of valid intervals `X`, `intervals_union X` is
sorted ascending by start, is at a merge fixed point (any two returned
intervals neither overlap nor touch), covers exactly the points covered
by some member of `X` (merged intervals span the merged inputs), and in
particular `intervals_union [[0,5],[5,10]] = [[0,10]]`. -/
theorem intervals_union_spec (X : List Iv) (hX : ∀ i ∈ X, validIv i) :
    (intervals_union X).Pairwise leStart ∧
    (intervals_union X).Pairwise (fun a b => a.2 < b.1) ∧
    (∀ x : ℤ, memGen x (intervals_union X) ↔ memGen x X) ∧
    intervals_union [(0, 5), (5, 10)] = [(0, 10)] :=
  ⟨union_sorted X, (union_canonical X hX).1, fun x => union_mem X x, by decide⟩

/-- Witness for C1 at `X = [[0,5],[5,10]]`. -/
theorem intervals_union_spec_witness :
    (∀ i ∈ ([(0, 5), (5, 10)] : List Iv), validIv i) ∧
    ((intervals_union [(0, 5), (5, 10)]).Pairwise leStart ∧
     (intervals_union [(0, 5), (5, 10)]).Pairwise (fun a b => a.2 < b.1) ∧
     (∀ x : ℤ, memGen x (intervals_union [(0, 5), (5, 10)]) ↔
        memGen x [(0, 5), (5, 10)]) ∧
     intervals_union [(0, 5), (5, 10)] = [(0, 10)]) :=
  ⟨by decide, intervals_union_spec [(0, 5), (5, 10)] (by decide)⟩

/-- C2: for valid intervals, `overlaps a b` is true iff `a` and `b` share
a point under half-open semantics; touching intervals (`a.stop = b.start`)
do not overlap, and in particular `overlaps [0,5) [5,10) = false`. -/
theorem overlaps_spec (a b : Iv) (ha : validIv a) (hb : validIv b) :
    ((overlaps a b = true) ↔ ∃ x : ℤ, memIv x a ∧ memIv x b) ∧
    (a.2 = b.1 → overlaps a b = false) ∧
    overlaps (0, 5) (5, 10) = false := by
  refine ⟨?_, ?_, by decide⟩
  · constructor
    · intro h
      have h' : max a.1 b.1 < min a.2 b.2 := of_decide_eq_true h
      refine ⟨max a.1 b.1, ⟨le_max_left _ _, ?_⟩, ⟨le_max_right _ _, ?_⟩⟩
      · exact lt_of_lt_of_le h' (min_le_left _ _)
      · exact lt_of_lt_of_le h' (min_le_right _ _)
    · rintro ⟨x, ⟨h1, h2⟩, ⟨h3, h4⟩⟩
      exact decide_eq_true (lt_of_le_of_lt (max_le h1 h3) (lt_min h2 h4))
  · intro h
    rw [overlaps_eq_false_iff]
    have h1 : min a.2 b.2 ≤ a.2 := min_le_left _ _
    have h2 : b.1 ≤ max a.1 b.1 := le_max_right _ _
    omega

/-- Witness for C2 at `a = [0,5)`, `b = [5,10)`. -/
theorem overlaps_spec_witness :
    ((overlaps (0, 5) (5, 10) = true) ↔
      ∃ x : ℤ, memIv x (0, 5) ∧ memIv x (5, 10)) ∧
    (((0, 5) : Iv).2 = ((5, 10) : Iv).1 → overlaps (0, 5) (5, 10) = false) ∧
    overlaps (0, 5) (5, 10) = false :=
  overlaps_spec (0, 5) (5, 10) (by decide) (by decide)

/-- C3: for every collection of valid intervals, `max_disjoint_covering`
returns a subset (sub-multiset) of the input that is pairwise
non-overlapping; without a weight function its cardinality is maximum
over all pairwise non-overlapping subsets (greedy earliest-end-first
selection), and with a weight function its total weight is maximum over
all such subsets (interval-scheduling dynamic program, not greedy). -/
theorem max_disjoint_covering_spec (X : List Iv) (w : Iv → ℤ)
    (hX : ∀ i ∈ X, validIv i) :
    ((max_disjoint_covering X none).Subperm X ∧
     (max_disjoint_covering X none).Pairwise (fun a b => overlaps a b = false) ∧
     (∀ S : List Iv, S.Subperm X →
        S.Pairwise (fun a b => overlaps a b = false) →
        S.length ≤ (max_disjoint_covering X none).length)) ∧
    ((max_disjoint_covering X (some w)).Subperm X ∧
     (max_disjoint_covering X (some w)).Pairwise
        (fun a b => overlaps a b = false) ∧
     (∀ S : List Iv, S.Subperm X →
        S.Pairwise (fun a b => overlaps a b = false) →
        totalWeight w S ≤ totalWeight w (max_disjoint_covering X (some w)))) := by
  have hvs : ∀ i ∈ sortByEnd X, validIv i :=
    fun i hi => hX i ((sortByEnd_perm X).mem_iff.mp hi)
  refine ⟨⟨?_, ?_, ?_⟩, ⟨?_, ?_, ?_⟩⟩
  · exact (greedySelect_sublist (sortByEnd X)).subperm.trans
      (sortByEnd_perm X).subperm
  · exact greedySelect_pairwise (sortByEnd X)
  · intro S hSsub hSno
    have hsub : (sortByEnd S).Sublist (sortByEnd X) := subperm_sortByEnd hSsub
    have hno' : (sortByEnd S).Pairwise (fun a b => overlaps a b = false) :=
      (pairwise_noOverlap_perm (sortByEnd_perm S)).mpr hSno
    have h := greedySelect_opt (sortByEnd X) hvs (sortByEnd_sorted X)
      (sortByEnd S) hsub hno'
    rw [(sortByEnd_perm S).length_eq] at h
    exact h
  · exact (mwisSelect_sublist w (sortByEnd X)).subperm.trans
      (sortByEnd_perm X).subperm
  · exact mwisSelect_pairwise w (sortByEnd X)
  · intro S hSsub hSno
    have hsub : (sortByEnd S).Sublist (sortByEnd X) := subperm_sortByEnd hSsub
    have hno' : (sortByEnd S).Pairwise (fun a b => overlaps a b = false) :=
      (pairwise_noOverlap_perm (sortByEnd_perm S)).mpr hSno
    have h := mwisSelect_opt w (sortByEnd X) hvs (sortByEnd_sorted X)
      (sortByEnd S) hsub hno'
    rw [totalWeight_perm w (sortByEnd_perm S)] at h
    exact h

/-- Witness for C3 at `X = [[1,3],[2,5],[4,7],[6,9]]` with the length
weight function. -/
theorem max_disjoint_covering_spec_witness :
    (∀ i ∈ ([(1, 3), (2, 5), (4, 7), (6, 9)] : List Iv), validIv i) ∧
    (((max_disjoint_covering [(1, 3), (2, 5), (4, 7), (6, 9)] none).Subperm
        [(1, 3), (2, 5), (4, 7), (6, 9)] ∧
      (max_disjoint_covering [(1, 3), (2, 5), (4, 7), (6, 9)] none).Pairwise
        (fun a b => overlaps a b = false) ∧
      (∀ S : List Iv, S.Subperm [(1, 3), (2, 5), (4, 7), (6, 9)] →
        S.Pairwise (fun a b => overlaps a b = false) →
        S.length ≤
          (max_disjoint_covering [(1, 3), (2, 5), (4, 7), (6, 9)] none).length)) ∧
     ((max_disjoint_covering [(1, 3), (2, 5), (4, 7), (6, 9)]
          (some (fun i => i.2 - i.1))).Subperm
        [(1, 3), (2, 5), (4, 7), (6, 9)] ∧
      (max_disjoint_covering [(1, 3), (2, 5), (4, 7), (6, 9)]
          (some (fun i => i.2 - i.1))).Pairwise
        (fun a b => overlaps a b = false) ∧
      (∀ S : List Iv, S.Subperm [(1, 3), (2, 5), (4, 7), (6, 9)] →
        S.Pairwise (fun a b => overlaps a b = false) →
        totalWeight (fun i => i.2 - i.1) S ≤
          totalWeight (fun i => i.2 - i.1)
            (max_disjoint_covering [(1, 3), (2, 5), (4, 7), (6, 9)]
              (some (fun i => i.2 - i.1)))))) :=
  ⟨by decide, max_disjoint_covering_spec [(1, 3), (2, 5), (4, 7), (6, 9)]
    (fun i => i.2 - i.1) (by decide)⟩

/-- C4: for every enclosing interval and every valid generalized interval
`A` — fully outside, fully covering, or partially covering the bounds —
the complement contains exactly the points inside the bounds not covered
by `A`, and in particular
`complement([0,20], [[2,5],[10,12]]) = [[0,2],[5,10],[12,20]]`. -/
theorem complement_spec (bounds : Iv) (A : GenIv)
    (hA : ∀ i ∈ A, validIv i) :
    (∀ x : ℤ, memGen x (generalized_interval_complement bounds A) ↔
      (memIv x bounds ∧ ¬ memGen x A)) ∧
    generalized_interval_complement (0, 20) [(2, 5), (10, 12)] =
      [(0, 2), (5, 10), (12, 20)] :=
  ⟨complement_mem bounds A hA, by decide⟩

/-- Witness for C4 at `bounds = [0,20)`, `A = [[2,5],[10,12]]`. -/
theorem complement_spec_witness :
    (∀ i ∈ ([(2, 5), (10, 12)] : GenIv), validIv i) ∧
    ((∀ x : ℤ,
        memGen x (generalized_interval_complement (0, 20) [(2, 5), (10, 12)]) ↔
          (memIv x (0, 20) ∧ ¬ memGen x [(2, 5), (10, 12)])) ∧
     generalized_interval_complement (0, 20) [(2, 5), (10, 12)] =
       [(0, 2), (5, 10), (12, 20)]) :=
  ⟨by decide, complement_spec (0, 20) [(2, 5), (10, 12)] (by decide)⟩

/-- C5: `generalized_intervals_intersection` is commutative: the
canonicalized collection of clipped pairwise overlaps does not depend on
the argument order. -/
theorem generalized_intersection_comm (A B : GenIv) :
    generalized_intervals_intersection A B =
      generalized_intervals_intersection B A :=
  canonical_ext _ _ (genInt_canonical A B) (genInt_canonical B A)
    (fun x => by rw [genInt_mem, genInt_mem, and_comm])

/-- C6: for every bounds interval and every valid generalized interval
`A`, taking the complement within the bounds twice yields the canonical
(sorted, merged, non-touching) form of the intersection of `A` with the
bounds.  Proved for every valid `A`, which covers in particular every `A`
fully or partially inside the bounds. -/
theorem complement_involution (bounds : Iv) (A : GenIv)
    (hA : ∀ i ∈ A, validIv i) :
    generalized_interval_complement bounds
        (generalized_interval_complement bounds A) =
      generalized_intervals_intersection A [bounds] := by
  apply canonical_ext
  · exact complement_canonical bounds _ (complement_canonical bounds A hA).2
  · exact genInt_canonical A [bounds]
  · intro x
    rw [complement_mem bounds _ (complement_canonical bounds A hA).2,
      complement_mem bounds A hA, genInt_mem]
    rw [memGen_singleton]
    tauto

/-- Witness for C6 at `bounds = [0,20)`, `A = [[2,5],[25,30]]` (partially
inside the bounds). -/
theorem complement_involution_witness :
    (∀ i ∈ ([(2, 5), (25, 30)] : GenIv), validIv i) ∧
    generalized_interval_complement (0, 20)
        (generalized_interval_complement (0, 20) [(2, 5), (25, 30)]) =
      generalized_intervals_intersection [(2, 5), (25, 30)] [(0, 20)] :=
  ⟨by decide, complement_involution (0, 20) [(2, 5), (25, 30)] (by decide)⟩

/-- C7 counterexample: with `start = 5`, `stop = 3` and the zero-length
exception requested, validation fails (non-monotone bounds are always
rejected), although the claim's failure condition
"`stop ≤ start` and the exception not requested" is false there. -/
theorem validate_interval_claim_counterexample :
    validateFails 5 3 true = true ∧ ¬ (((3 : ℤ) ≤ 5) ∧ true = false) := by
  decide

/-- C7 (amended): validation fails with `InvalidIntervalError` exactly
when `stop < start`, or `stop = start` with the zero-length exception not
requested; for `start < stop` it succeeds and returns the interval. -/
theorem validate_interval_spec (s e : ℤ) (z : Bool) :
    (validateFails s e z = true ↔ (e < s ∨ (e = s ∧ z = false))) ∧
    (s < e → validate_interval s e z = Except.ok (s, e)) := by
  constructor
  · cases z <;> unfold validateFails validate_interval <;>
      split_ifs with h1 h2 <;> simp_all <;> omega
  · intro h
    unfold validate_interval
    rw [if_pos h]

/-- Witness for C7 at `start = 0`, `stop = 5`, exception not requested. -/
theorem validate_interval_spec_witness :
    (validateFails 0 5 false = true ↔
      ((5 : ℤ) < 0 ∨ ((5 : ℤ) = 0 ∧ false = false))) ∧
    validate_interval 0 5 false = Except.ok (0, 5) :=
  ⟨(validate_interval_spec 0 5 false).1,
    (validate_interval_spec 0 5 false).2 (by decide)⟩

/-- C8: for every record and query window with `sampfrom < sampto` (after
the Python `or` defaulting), the interval branch of `AFDB.load_ann`
computes each rhythm class's interval list as exactly
`generalized_intervals_intersection(raw, [[sf, st]])`, shifted by `-sf`
unless `keep_original`, so every returned interval lies within the query
window (shifted accordingly). -/
theorem afdb_load_ann_spec (raw : GenIv) (sampfrom sampto : Option ℤ)
    (sig_len : ℤ) (keep_original : Bool)
    (hw : sampfromOr0 sampfrom < samptoOrSigLen sampto sig_len) :
    (afdb_load_ann_class raw sampfrom sampto sig_len keep_original =
      (if keep_original then
        generalized_intervals_intersection raw
          [(sampfromOr0 sampfrom, samptoOrSigLen sampto sig_len)]
      else
        (generalized_intervals_intersection raw
          [(sampfromOr0 sampfrom, samptoOrSigLen sampto sig_len)]).map
          (fun i => (i.1 - sampfromOr0 sampfrom, i.2 - sampfromOr0 sampfrom)))) ∧
    (∀ i ∈ afdb_load_ann_class raw sampfrom sampto sig_len keep_original,
      (keep_original = true →
        sampfromOr0 sampfrom ≤ i.1 ∧ i.2 ≤ samptoOrSigLen sampto sig_len) ∧
      (keep_original = false →
        0 ≤ i.1 ∧ i.2 ≤ samptoOrSigLen sampto sig_len - sampfromOr0 sampfrom)) := by
  constructor
  · rfl
  · intro i hi
    cases keep_original
    · unfold afdb_load_ann_class at hi
      simp only [if_neg Bool.false_ne_true] at hi
      refine ⟨fun h => absurd h (by simp), fun _ => ?_⟩
      rcases List.mem_map.mp hi with ⟨j, hj, rfl⟩
      have hb := genInt_window_bounds raw _ _ j hj
      constructor <;> omega
    · unfold afdb_load_ann_class at hi
      simp only [if_pos rfl] at hi
      refine ⟨fun _ => ?_, fun h => absurd h (by simp)⟩
      exact genInt_window_bounds raw _ _ i hi

/-- Witness for C8: window `[10, 50)` on a single raw interval. -/
theorem afdb_load_ann_spec_witness :
    (sampfromOr0 (some 10) < samptoOrSigLen (some 50) 1000) ∧
    ((afdb_load_ann_class [(0, 100)] (some 10) (some 50) 1000 false =
      (if false then
        generalized_intervals_intersection [(0, 100)]
          [(sampfromOr0 (some 10), samptoOrSigLen (some 50) 1000)]
      else
        (generalized_intervals_intersection [(0, 100)]
          [(sampfromOr0 (some 10), samptoOrSigLen (some 50) 1000)]).map
          (fun i => (i.1 - sampfromOr0 (some 10), i.2 - sampfromOr0 (some 10))))) ∧
    (∀ i ∈ afdb_load_ann_class [(0, 100)] (some 10) (some 50) 1000 false,
      (false = true →
        sampfromOr0 (some 10) ≤ i.1 ∧ i.2 ≤ samptoOrSigLen (some 50) 1000) ∧
      (false = false →
        0 ≤ i.1 ∧
          i.2 ≤ samptoOrSigLen (some 50) 1000 - sampfromOr0 (some 10)))) :=
  ⟨by decide,
    afdb_load_ann_spec [(0, 100)] (some 10) (some 50) 1000 false (by decide)⟩

/-- C9: in `train`, `evaluate_crnn` and `evaluate_seq_lab`, the model used
afterwards is obtained by dispatching on the runtime class-name string:
`model.module` exactly when `type(model).__name__ = "DataParallel"`, the
model itself in every other case; a `DistributedDataParallel` wrapper is
not unwrapped. -/
theorem trainer_unwrap_spec (m : TorchModule) :
    (typeName m = "DataParallel" →
      train_unwrap m = moduleAttr m ∧
      evaluate_crnn_unwrap m = moduleAttr m ∧
      evaluate_seq_lab_unwrap m = moduleAttr m) ∧
    (typeName m ≠ "DataParallel" →
      train_unwrap m = some m ∧
      evaluate_crnn_unwrap m = some m ∧
      evaluate_seq_lab_unwrap m = some m) ∧
    (∀ inner : TorchModule,
      train_unwrap (TorchModule.distributedDataParallel inner) =
        some (TorchModule.distributedDataParallel inner) ∧
      evaluate_crnn_unwrap (TorchModule.distributedDataParallel inner) =
        some (TorchModule.distributedDataParallel inner) ∧
      evaluate_seq_lab_unwrap (TorchModule.distributedDataParallel inner) =
        some (TorchModule.distributedDataParallel inner)) := by
  refine ⟨?_, ?_, ?_⟩
  · intro h
    unfold train_unwrap evaluate_crnn_unwrap evaluate_seq_lab_unwrap
    simp [h]
  · intro h
    unfold train_unwrap evaluate_crnn_unwrap evaluate_seq_lab_unwrap
    simp [h]
  · intro inner
    unfold train_unwrap evaluate_crnn_unwrap evaluate_seq_lab_unwrap
    simp [typeName]

/-- Witness for C9: a `DataParallel` wrapper is unwrapped to its module,
a plain model is passed through. -/
theorem trainer_unwrap_spec_witness :
    (train_unwrap (TorchModule.dataParallel (TorchModule.plain "net")) =
        moduleAttr (TorchModule.dataParallel (TorchModule.plain "net")) ∧
      evaluate_crnn_unwrap (TorchModule.dataParallel (TorchModule.plain "net")) =
        moduleAttr (TorchModule.dataParallel (TorchModule.plain "net")) ∧
      evaluate_seq_lab_unwrap
          (TorchModule.dataParallel (TorchModule.plain "net")) =
        moduleAttr (TorchModule.dataParallel (TorchModule.plain "net"))) ∧
    (train_unwrap (TorchModule.plain "ECG_CRNN") =
        some (TorchModule.plain "ECG_CRNN") ∧
      evaluate_crnn_unwrap (TorchModule.plain "ECG_CRNN") =
        some (TorchModule.plain "ECG_CRNN") ∧
      evaluate_seq_lab_unwrap (TorchModule.plain "ECG_CRNN") =
        some (TorchModule.plain "ECG_CRNN")) :=
  ⟨(trainer_unwrap_spec (TorchModule.dataParallel (TorchModule.plain "net"))).1
      rfl,
    (trainer_unwrap_spec (TorchModule.plain "ECG_CRNN")).2.1 (by decide)⟩

/-- C10: `Resample.__init__` accepts its arguments exactly when, under
Python truthiness (where both `None` and `0` are falsy), exactly one of
`fs` and `siglen` is truthy; in particular `fs = 0, siglen = 512` is
accepted while `fs = 0` alone and `fs = 100, siglen = 512` are
rejected. -/
theorem resample_init_spec (fs siglen : Option ℤ) :
    ((resample_init fs siglen = Except.ok (fs, siglen)) ↔
      (((∃ v, fs = some v ∧ v ≠ 0) ∧ ¬ (∃ v, siglen = some v ∧ v ≠ 0)) ∨
       (¬ (∃ v, fs = some v ∧ v ≠ 0) ∧ (∃ v, siglen = some v ∧ v ≠ 0)))) ∧
    resample_init (some 0) (some 512) = Except.ok (some 0, some 512) ∧
    resample_init (some 0) none =
      Except.error "one and only one of fs and siglen should be set" ∧
    resample_init (some 100) (some 512) =
      Except.error "one and only one of fs and siglen should be set" := by
  refine ⟨?_, rfl, rfl, rfl⟩
  rcases fs with _ | v <;> rcases siglen with _ | u
  · simp [resample_init, resample_init_ok, pyTruthyOptInt]
  · by_cases hu : u = 0 <;>
      simp [resample_init, resample_init_ok, pyTruthyOptInt, hu]
  · by_cases hv : v = 0 <;>
      simp [resample_init, resample_init_ok, pyTruthyOptInt, hv]
  · by_cases hv : v = 0 <;> by_cases hu : u = 0 <;>
      simp [resample_init, resample_init_ok, pyTruthyOptInt, hv, hu]

end TorchECG
